import Mathlib

/-!
Shallow embedding of the webserver's core data model and operations:
configuration types and validation (internal/config/config.go),
per-endpoint statistics (pkg/types/types.go), the bounded request log,
conditional-error dispatch and static-file path resolution
(internal/server). Go maps that are passed by reference
(`map[string]EndpointConfig`, `map[string]interface{}`) are modelled as
addresses into an explicit heap so that the aliasing behaviour of
`GetConfig` and the mutators is captured faithfully. JSON object values
are abstracted to association lists of strings: only their identity and
structural equality matter to the claims.
-/

/-- Heap address for a Go reference value (a map). -/
abbrev Addr := Nat

/-- Abstraction of `map[string]interface{}` contents. -/
abbrev JsonObj := List (String × String)

/-- `types.ServerConfig`. -/
structure ServerConfig where
  port : Int
  host : String
  staticDir : String
deriving DecidableEq

/-- `types.EndpointConfig`. `response` and `successResponse` are references
to JSON objects on the heap (`none` models a nil map). -/
structure EndpointConfig where
  type : String
  statusCode : Int
  message : String
  delayMs : Int
  response : Option Addr
  errorEveryN : Int
  successResponse : Option Addr
deriving DecidableEq

/-- `types.Config`. `endpoints` is a reference to a table on the heap
(`none` models a nil `map[string]EndpointConfig`). -/
structure Config where
  server : ServerConfig
  endpoints : Option Addr
deriving DecidableEq

/-- Contents of a `map[string]EndpointConfig`. -/
abbrev Table := List (String × EndpointConfig)

/-- The reference heap: tables and JSON objects, plus an allocation counter. -/
structure Heap where
  tables : List (Addr × Table)
  jsons : List (Addr × JsonObj)
  next : Addr
deriving DecidableEq

/-- Go map read (`m[k]`, second result dropped). -/
def lookupAssoc {α β : Type} [DecidableEq α] : List (α × β) → α → Option β
  | [], _ => none
  | (x, y) :: r, a => if x = a then some y else lookupAssoc r a

/-- Go map write (`m[k] = v`): overwrite in place or append. -/
def updateAssoc {α β : Type} [DecidableEq α] : List (α × β) → α → β → List (α × β)
  | [], a, b => [(a, b)]
  | (x, y) :: r, a, b => if x = a then (a, b) :: r else (x, y) :: updateAssoc r a b

/-- Go `delete(m, k)`. -/
def removeAssoc {α β : Type} [DecidableEq α] : List (α × β) → α → List (α × β)
  | [], _ => []
  | (x, y) :: r, a => if x = a then removeAssoc r a else (x, y) :: removeAssoc r a

def lookupTable (h : Heap) (a : Addr) : Table :=
  (lookupAssoc h.tables a).getD []

def lookupJson (h : Heap) (a : Addr) : JsonObj :=
  (lookupAssoc h.jsons a).getD []

def writeTable (h : Heap) (a : Addr) (t : Table) : Heap :=
  { h with tables := updateAssoc h.tables a t }

def writeJson (h : Heap) (a : Addr) (v : JsonObj) : Heap :=
  { h with jsons := updateAssoc h.jsons a v }

/-- `make(map[string]EndpointConfig)` seeded with the given entries. -/
def allocTable (h : Heap) (t : Table) : Addr × Heap :=
  (h.next, { h with next := h.next + 1, tables := (h.next, t) :: h.tables })

/-! ## Endpoint statistics (`pkg/types/types.go`, EndpointStats) -/

/-- Mutable fields of `types.EndpointStats` (timestamps omitted: wall-clock
values play no role in the claims; `statusCodes` is the histogram map). -/
structure EndpointStats where
  requestCount : Nat
  errorCount : Nat
  totalTimeMs : Int
  minTimeMs : Int
  maxTimeMs : Int
  statusCodes : List (Int × Nat)
  conditionalCount : Nat
deriving DecidableEq

/-- A fresh stats record as created by `ServerStats.GetEndpointStats`. -/
def statsInit : EndpointStats :=
  { requestCount := 0, errorCount := 0, totalTimeMs := 0, minTimeMs := 0,
    maxTimeMs := 0, statusCodes := [], conditionalCount := 0 }

/-- `es.StatusCodes[statusCode]++`. -/
def bumpStatus : List (Int × Nat) → Int → List (Int × Nat)
  | [], s => [(s, 1)]
  | (c, n) :: rest, s =>
    if c = s then (c, n + 1) :: rest else (c, n) :: bumpStatus rest s

/-- `EndpointStats.RecordRequest(duration, statusCode)`. -/
def recordRequest (es : EndpointStats) (durationMs : Int) (statusCode : Int) :
    EndpointStats :=
  { es with
    requestCount := es.requestCount + 1
    totalTimeMs := es.totalTimeMs + durationMs
    errorCount := if 400 ≤ statusCode then es.errorCount + 1 else es.errorCount
    minTimeMs :=
      if es.minTimeMs = 0 ∨ durationMs < es.minTimeMs then durationMs
      else es.minTimeMs
    maxTimeMs := if es.maxTimeMs < durationMs then durationMs else es.maxTimeMs
    statusCodes := bumpStatus es.statusCodes statusCode }

/-- Fold a sequence of `(durationMs, statusCode)` records through
`RecordRequest`. -/
def applyRecords (es : EndpointStats) (recs : List (Int × Int)) : EndpointStats :=
  recs.foldl (fun s r => recordRequest s r.1 r.2) es

/-- Sum of the histogram's values. -/
def sumCounts (l : List (Int × Nat)) : Nat :=
  (l.map Prod.snd).sum

/-! ## Request log (`internal/server`, addToRequestLog) -/

/-- `maxLogSize` as set in `NewServer`. -/
def maxLogSize : Nat := 1000

/-- `types.RequestLogEntry` (timestamp abstracted away). -/
structure RequestLogEntry where
  method : String
  path : String
  statusCode : Int
  durationMs : Int
deriving DecidableEq

/-- `Server.addToRequestLog`: prepend, then trim to `maxLogSize`. -/
def addToRequestLog (log : List RequestLogEntry) (entry : RequestLogEntry) :
    List RequestLogEntry :=
  let l := entry :: log
  if maxLogSize < l.length then l.take maxLogSize else l

/-! ## Conditional-error dispatch (`internal/server`, handleDynamicEndpoint) -/

/-- A JSON response body: either the inline `map[string]string` error object
or a reference to a configured JSON object. -/
inductive RespBody where
  | errObj (msg : String)
  | jsonRef (r : Option Addr)
deriving DecidableEq

/-- The response of one `conditional_error` hit, given the counter value
`count` after `IncrementConditionalCount` (`count % int64(ErrorEveryN)`). -/
def condResponse (cfg : EndpointConfig) (count : Nat) : Int × RespBody :=
  if (count : Int) % cfg.errorEveryN = 0 then
    (cfg.statusCode, .errObj "Conditional error triggered")
  else (200, .jsonRef cfg.successResponse)

/-- Responses of `m` successive requests to a `conditional_error` endpoint
whose conditional counter currently holds `count`. -/
def runConditional (cfg : EndpointConfig) : Nat → Nat → List (Int × RespBody)
  | _, 0 => []
  | count, m + 1 => condResponse cfg (count + 1) :: runConditional cfg (count + 1) m

/-! ## Configuration manager (`internal/config/config.go`) -/

/-- `Manager.validateEndpointConfig`: returns the error message, or `none`. -/
def validateEndpointConfig (c : EndpointConfig) : Option String :=
  if c.type = "error" then
    if c.statusCode < 400 ∨ 599 < c.statusCode then some "invalid error status code"
    else none
  else if c.type = "delay" then
    if c.delayMs < 0 then some "delay cannot be negative" else none
  else if c.type = "conditional_error" then
    if c.errorEveryN < 1 then some "error_every_n must be at least 1"
    else if c.statusCode < 400 ∨ 599 < c.statusCode then some "invalid error status code"
    else none
  else if c.type = "static" then none
  else some "unknown endpoint type"

/-- The per-endpoint loop of `Manager.validateConfig`. -/
def validateEndpoints : Table → Option String
  | [] => none
  | (path, ec) :: rest =>
    if path = "" then some "endpoint path cannot be empty"
    else
      match validateEndpointConfig ec with
      | some e => some e
      | none => validateEndpoints rest

/-- `Manager.validateConfig`. A nil endpoint table validates (the range
loop over a nil map runs zero times). -/
def validateConfig (h : Heap) (c : Config) : Option String :=
  if c.server.port < 1 ∨ 65535 < c.server.port then some "invalid port"
  else if c.server.host = "" then some "host cannot be empty"
  else if c.server.staticDir = "" then some "static directory cannot be empty"
  else
    match c.endpoints with
    | none => none
    | some a => validateEndpoints (lookupTable h a)

/-- Manager state: the live `*types.Config` plus the reference heap. -/
structure MState where
  config : Option Config
  heap : Heap
deriving DecidableEq

/-- `Manager.GetConfig`: copy the Config struct, allocate a fresh endpoints
table and copy the entries into it (the entry values still carry their
original nested JSON references). -/
def getConfig (st : MState) : Option Config × MState :=
  match st.config with
  | none => (none, st)
  | some c =>
    let entries :=
      match c.endpoints with
      | none => []
      | some a => lookupTable st.heap a
    let (a2, h2) := allocTable st.heap entries
    (some { server := c.server, endpoints := some a2 }, { st with heap := h2 })

/-- `Manager.UpdateConfig`: validate, persist (`saveOk` is the outcome of
`saveConfigToFile`), then swap the in-memory pointer. -/
def updateConfig (st : MState) (newConfig : Config) (saveOk : Bool) :
    Option String × MState :=
  match validateConfig st.heap newConfig with
  | some e => (some e, st)
  | none =>
    if saveOk then (none, { st with config := some newConfig })
    else (some "failed to save config", st)

/-- `Manager.UpdateEndpoint`: validate the endpoint, create the table if
nil, write the entry into the live table, then persist. -/
def updateEndpoint (st : MState) (path : String) (ec : EndpointConfig)
    (saveOk : Bool) : Option String × MState :=
  match st.config with
  | none => (some "configuration not loaded", st)
  | some c =>
    match validateEndpointConfig ec with
    | some e => (some e, st)
    | none =>
      match c.endpoints with
      | some a =>
        let h2 := writeTable st.heap a (updateAssoc (lookupTable st.heap a) path ec)
        let st2 : MState := { config := some c, heap := h2 }
        if saveOk then (none, st2) else (some "failed to save config", st2)
      | none =>
        let (a, h1) := allocTable st.heap []
        let h2 := writeTable h1 a (updateAssoc [] path ec)
        let st2 : MState := { config := some { c with endpoints := some a }, heap := h2 }
        if saveOk then (none, st2) else (some "failed to save config", st2)

/-- `Manager.RemoveEndpoint`: error on a nil config or nil table, delete
the key from the live table (a no-op when absent), then persist. -/
def removeEndpoint (st : MState) (path : String) (saveOk : Bool) :
    Option String × MState :=
  match st.config with
  | none => (some "configuration not loaded", st)
  | some c =>
    match c.endpoints with
    | none => (some "endpoint not found", st)
    | some a =>
      let h2 := writeTable st.heap a (removeAssoc (lookupTable st.heap a) path)
      let st2 : MState := { config := some c, heap := h2 }
      if saveOk then (none, st2) else (some "failed to save config", st2)

/-! Dereferenced (structural) view of a configuration, used to state
"the in-memory Config is structurally unchanged". -/

/-- An `EndpointConfig` with its JSON references dereferenced. -/
structure REndpoint where
  type : String
  statusCode : Int
  message : String
  delayMs : Int
  response : Option JsonObj
  errorEveryN : Int
  successResponse : Option JsonObj
deriving DecidableEq

def renderEndpoint (h : Heap) (e : EndpointConfig) : REndpoint :=
  { type := e.type, statusCode := e.statusCode, message := e.message,
    delayMs := e.delayMs, response := e.response.map (lookupJson h),
    errorEveryN := e.errorEveryN,
    successResponse := e.successResponse.map (lookupJson h) }

/-- A `Config` with all references dereferenced. -/
structure RConfig where
  server : ServerConfig
  endpoints : Option (List (String × REndpoint))
deriving DecidableEq

def renderConfig (h : Heap) (c : Config) : RConfig :=
  { server := c.server,
    endpoints := c.endpoints.map
      (fun a => (lookupTable h a).map (fun p => (p.1, renderEndpoint h p.2))) }

/-- The manager's live configuration, fully dereferenced. -/
def renderMState (st : MState) : Option RConfig :=
  st.config.map (renderConfig st.heap)

/-- The live endpoint table's raw entries (`none` when not loaded or nil). -/
def endpointsOf (st : MState) : Option Table :=
  st.config.bind (fun c => c.endpoints.map (lookupTable st.heap))

/-! ## Control-plane statistics (`internal/server`, handleConfig etc.) -/

/-- Mutable fields of `types.ServerStats`. -/
structure SrvStats where
  requestCount : Nat
  errorCount : Nat
  endpoints : List (String × EndpointStats)
deriving DecidableEq

/-- `ServerStats.GetEndpointStats` (creates a fresh record when absent). -/
def getEndpointStats (ss : SrvStats) (path : String) : EndpointStats :=
  (lookupAssoc ss.endpoints path).getD statsInit

/-- `ServerStats.RecordRequest`: bump the globals, then record on the
per-endpoint stats. -/
def recordServerRequest (ss : SrvStats) (path : String) (durationMs : Int)
    (statusCode : Int) : SrvStats :=
  { requestCount := ss.requestCount + 1,
    errorCount := if 400 ≤ statusCode then ss.errorCount + 1 else ss.errorCount,
    endpoints := updateAssoc ss.endpoints path
      (recordRequest (getEndpointStats ss path) durationMs statusCode) }

/-- The server state seen by the control-plane handlers. -/
structure SrvState where
  mgr : MState
  stats : SrvStats
deriving DecidableEq

/-- A request to `/config`. `putBody`/`postBody` are `none` when the JSON
body fails to decode; `queryPath` is the `path` query parameter. -/
structure ConfigRequest where
  method : String
  putBody : Option Config
  postBody : Option (String × EndpointConfig)
  queryPath : String

/-- The method dispatch inside `Server.handleConfig`, returning the manager
state and the status code actually written to the client. -/
def configDispatch (mgr : MState) (req : ConfigRequest) (saveOk : Bool) :
    MState × Int :=
  if req.method = "GET" then
    match getConfig mgr with
    | (none, m) => (m, 500)
    | (some _, m) => (m, 200)
  else if req.method = "PUT" then
    match req.putBody with
    | none => (mgr, 400)
    | some nc =>
      match updateConfig mgr nc saveOk with
      | (some _, m) => (m, 400)
      | (none, m) => (m, 200)
  else if req.method = "POST" then
    match req.postBody with
    | none => (mgr, 400)
    | some (p, ec) =>
      if p = "" then (mgr, 400)
      else
        match updateEndpoint mgr p ec saveOk with
        | (some _, m) => (m, 400)
        | (none, m) => (m, 200)
  else if req.method = "DELETE" then
    if req.queryPath = "" then (mgr, 400)
    else
      match removeEndpoint mgr req.queryPath saveOk with
      | (some _, m) => (m, 400)
      | (none, m) => (m, 200)
  else (mgr, 405)

/-- `Server.handleConfig`: run the method dispatch; the deferred call then
records statistics under the literal path `"/config"` with `http.StatusOK`,
whatever status was written. Returns the new state and the written status. -/
def handleConfig (st : SrvState) (req : ConfigRequest) (saveOk : Bool)
    (durationMs : Int) : SrvState × Int :=
  let r := configDispatch st.mgr req saveOk
  ({ mgr := r.1, stats := recordServerRequest st.stats "/config" durationMs 200 },
    r.2)

/-- `Server.handleStats`: writes 200 and records under `"/stats"` with
`http.StatusOK`. -/
def handleStats (st : SrvState) (durationMs : Int) : SrvState × Int :=
  ({ st with stats := recordServerRequest st.stats "/stats" durationMs 200 }, 200)

/-- `Server.handleRequestLog`: 405 on a non-GET, 200 otherwise; records no
statistics at all. -/
def handleRequestLog (st : SrvState) (method : String) : SrvState × Int :=
  (st, if method = "GET" then 200 else 405)

/-! ## Static file path resolution (`internal/server`, handleStaticFile)

Go's lexical path functions on Unix: `filepath.Clean`, `filepath.Join`
(join with a slash, then clean) and `filepath.Abs` (clean if rooted,
otherwise join onto the working directory). Paths are handled as lists of
characters; splitting on the separator and re-joining the cleaned
segments reproduces the lexical algorithm. -/

/-- Split a character list on the path separator. -/
def splitSlash : List Char → List (List Char)
  | [] => [[]]
  | c :: cs =>
    let r := splitSlash cs
    if c = '/' then [] :: r
    else
      match r with
      | [] => [[c]]
      | e :: rest => (c :: e) :: rest

/-- The element-processing loop of `filepath.Clean`, with the output stack
accumulated in reverse. A `..` pops a non-`..` entry; on an empty stack it
is dropped when the path is rooted and kept otherwise. -/
def cleanFold (rooted : Bool) : List (List Char) → List (List Char) → List (List Char)
  | acc, [] => acc
  | acc, e :: es =>
    if e = [] ∨ e = ['.'] then cleanFold rooted acc es
    else if e = ['.', '.'] then
      match acc with
      | top :: rest =>
        if top = ['.', '.'] then cleanFold rooted (e :: acc) es
        else cleanFold rooted rest es
      | [] => if rooted then cleanFold rooted [] es else cleanFold rooted [e] es
    else cleanFold rooted (e :: acc) es

/-- Join path segments with slashes. -/
def joinSegs : List (List Char) → List Char
  | [] => []
  | [e] => e
  | e :: rest => e ++ '/' :: joinSegs rest

/-- `filepath.Clean` (Unix). -/
def goClean (p : String) : String :=
  match p.data with
  | [] => "."
  | c :: cs =>
    if c = '/' then
      ⟨'/' :: joinSegs ((cleanFold true [] (splitSlash (c :: cs))).reverse)⟩
    else
      let body := joinSegs ((cleanFold false [] (splitSlash (c :: cs))).reverse)
      if body = [] then "." else ⟨body⟩

/-- `filepath.Join` of two elements: empty elements are dropped, the rest
joined with a slash and cleaned; all-empty yields the empty string. -/
def goJoin (a b : String) : String :=
  if a = "" ∧ b = "" then ""
  else if a = "" then goClean b
  else if b = "" then goClean a
  else goClean ⟨a.data ++ '/' :: b.data⟩

/-- Whether a path is rooted (`filepath.IsAbs` on Unix). -/
def isRooted (p : String) : Bool :=
  match p.data with
  | [] => false
  | c :: _ => c = '/'

/-- `filepath.Abs`: clean a rooted path, otherwise join onto the working
directory. -/
def goAbs (cwd p : String) : String :=
  if isRooted p then goClean p else goJoin cwd p

/-- `strings.HasPrefix`. -/
def strHasPre (s pre : String) : Bool :=
  pre.data.isPrefixOf s.data

/-- Outcome of `Server.handleStaticFile` up to the file-system layer:
either the 403 rejection or serving the computed file path. -/
inductive StaticOutcome where
  | forbidden
  | serve (filePath : String)
deriving DecidableEq

/-- `Server.handleStaticFile`: clean the URL path, map `/` to
`/index.html`, join onto the static root, and reject with 403 exactly when
the absolute file path does not have the absolute static root as a string
prefix. -/
def handleStaticFile (cwd staticDir urlPath : String) : StaticOutcome :=
  let cleanPath := goClean urlPath
  let cleanPath := if cleanPath = "/" then "/index.html" else cleanPath
  let filePath := goJoin staticDir cleanPath
  let absStaticDir := goAbs cwd staticDir
  let absFilePath := goAbs cwd filePath
  if strHasPre absFilePath absStaticDir then .serve filePath else .forbidden

/-! ## C4: request log bound and ordering -/

theorem addToRequestLog_eq (log : List RequestLogEntry) (e : RequestLogEntry) :
    addToRequestLog log e = e :: log.take (maxLogSize - 1) := by
  unfold addToRequestLog maxLogSize
  by_cases h : 1000 < (e :: log).length
  · simp only [if_pos h]
    show (e :: log).take (999 + 1) = e :: log.take (1000 - 1)
    simp [List.take_succ_cons]
  · simp only [if_neg h]
    have hlen : log.length ≤ 999 := by simp at h; omega
    rw [List.take_of_length_le hlen]

theorem addToRequestLog_length_le (log : List RequestLogEntry) (e : RequestLogEntry) :
    (addToRequestLog log e).length ≤ maxLogSize := by
  rw [addToRequestLog_eq]
  simp only [List.length_cons, List.length_take, maxLogSize]
  omega

theorem foldl_addToRequestLog_length_le (es : List RequestLogEntry)
    (log : List RequestLogEntry) (h : log.length ≤ maxLogSize) :
    (es.foldl addToRequestLog log).length ≤ maxLogSize := by
  induction es generalizing log with
  | nil => simpa using h
  | cons e es ih =>
    simp only [List.foldl_cons]
    exact ih _ (addToRequestLog_length_le _ _)

/-- C4: after any sequence of appends starting from the empty history, the
request log holds at most `maxLogSize = 1000` records, and each append
places the new record at position 0, keeps the first 999 earlier records
in order, and (when the log is full) drops the oldest record. -/
theorem request_log_bound_and_order :
    (∀ es : List RequestLogEntry, (es.foldl addToRequestLog []).length ≤ maxLogSize) ∧
    (∀ (log : List RequestLogEntry) (e : RequestLogEntry),
      addToRequestLog log e = e :: log.take (maxLogSize - 1)) :=
  ⟨fun es => foldl_addToRequestLog_length_le es [] (by simp [maxLogSize]),
   addToRequestLog_eq⟩


/-! ## C3: endpoint statistics invariants -/

theorem sumCounts_bumpStatus (l : List (Int × Nat)) (s : Int) :
    sumCounts (bumpStatus l s) = sumCounts l + 1 := by
  induction l with
  | nil => simp [bumpStatus, sumCounts]
  | cons p r ih =>
    obtain ⟨c, n⟩ := p
    simp only [bumpStatus]
    by_cases h : c = s
    · simp [h, sumCounts]
      omega
    · simp [h, sumCounts] at ih ⊢
      omega

def StatsInv (s : EndpointStats) : Prop :=
  s.errorCount ≤ s.requestCount ∧ sumCounts s.statusCodes = s.requestCount ∧
  s.minTimeMs ≤ s.maxTimeMs ∧ 0 ≤ s.maxTimeMs

theorem statsInv_record (s : EndpointStats) (d c : Int) (h : StatsInv s) :
    StatsInv (recordRequest s d c) := by
  obtain ⟨h1, h2, h3, h4⟩ := h
  simp only [StatsInv, recordRequest, sumCounts_bumpStatus]
  refine ⟨?_, ?_, ?_, ?_⟩
  · split <;> omega
  · omega
  · split <;> split <;> omega
  · split <;> omega

theorem statsInv_fold (recs : List (Int × Int)) (s : EndpointStats)
    (h : StatsInv s) : StatsInv (applyRecords s recs) := by
  induction recs generalizing s with
  | nil => simpa [applyRecords] using h
  | cons r rs ih =>
    simp only [applyRecords, List.foldl_cons] at ih ⊢
    exact ih _ (statsInv_record _ _ _ h)

theorem errorCount_fold (recs : List (Int × Int)) (s : EndpointStats) :
    (applyRecords s recs).errorCount =
      s.errorCount + recs.countP (fun r => decide (400 ≤ r.2)) := by
  induction recs generalizing s with
  | nil => simp [applyRecords]
  | cons r rs ih =>
    simp only [applyRecords, List.foldl_cons, List.countP_cons] at ih ⊢
    rw [ih]
    simp only [recordRequest]
    split
    · simp_all
      omega
    · simp_all

/-- C3: after any sequence of `RecordRequest(duration, status)` calls on a
fresh stats record, the error count is at most the request count, the
status-code histogram sums to the request count, the error count equals
the number of records with status at least 400, and the minimum time never
exceeds the maximum time. -/
theorem endpoint_stats_invariants (recs : List (Int × Int)) :
    (applyRecords statsInit recs).errorCount ≤ (applyRecords statsInit recs).requestCount ∧
    sumCounts (applyRecords statsInit recs).statusCodes = (applyRecords statsInit recs).requestCount ∧
    (applyRecords statsInit recs).errorCount = recs.countP (fun r => decide (400 ≤ r.2)) ∧
    (applyRecords statsInit recs).minTimeMs ≤ (applyRecords statsInit recs).maxTimeMs := by
  have hinv := statsInv_fold recs statsInit (by refine ⟨?_, ?_, ?_, ?_⟩ <;> simp [statsInit, sumCounts])
  obtain ⟨h1, h2, h3, h4⟩ := hinv
  refine ⟨h1, h2, ?_, h3⟩
  have := errorCount_fold recs statsInit
  simpa [statsInit] using this


/-! ## C9: minimum elapsed time -/

/-- The update applied to `MinTimeMs` by one `RecordRequest` call. -/
def minStep (m d : Int) : Int :=
  if m = 0 ∨ d < m then d else m

/-- `MinTimeMs` after a sequence of records, starting from value `m`. -/
def minFoldAux (m : Int) (ds : List Int) : Int :=
  ds.foldl minStep m

/-- The durations recorded strictly after the last 0 entry (the whole list
when there is no 0 entry). -/
def suffixAfterZero : List Int → List Int
  | [] => []
  | d :: rest =>
    if (0 : Int) ∈ rest then suffixAfterZero rest
    else if d = 0 then rest else d :: rest

/-- Minimum of a list, 0 on the empty list. -/
def listMin0 : List Int → Int
  | [] => 0
  | [d] => d
  | d :: e :: es => min d (listMin0 (e :: es))

theorem minTimeMs_record (es : EndpointStats) (d c : Int) :
    (recordRequest es d c).minTimeMs = minStep es.minTimeMs d := rfl

theorem minTimeMs_fold (recs : List (Int × Int)) (es : EndpointStats) :
    (applyRecords es recs).minTimeMs = minFoldAux es.minTimeMs (recs.map Prod.fst) := by
  induction recs generalizing es with
  | nil => simp [applyRecords, minFoldAux]
  | cons r rs ih =>
    simp only [applyRecords, List.foldl_cons, List.map_cons, minFoldAux] at ih ⊢
    rw [ih]
    rfl

theorem minStep_nonneg {m d : Int} (hm : 0 ≤ m) (hd : 0 ≤ d) : 0 ≤ minStep m d := by
  unfold minStep
  split <;> omega

theorem minFoldAux_zero_mem (ds : List Int) (hds : ∀ d ∈ ds, 0 ≤ d)
    (hz : (0 : Int) ∈ ds) (m1 m2 : Int) (h1 : 0 ≤ m1) (h2 : 0 ≤ m2) :
    minFoldAux m1 ds = minFoldAux m2 ds := by
  induction ds generalizing m1 m2 with
  | nil => cases hz
  | cons d rest ih =>
    simp only [minFoldAux, List.foldl_cons] at ih ⊢
    by_cases hd : d = 0
    · subst hd
      have e1 : minStep m1 0 = 0 := by unfold minStep; split <;> omega
      have e2 : minStep m2 0 = 0 := by unfold minStep; split <;> omega
      rw [e1, e2]
    · have hz' : (0 : Int) ∈ rest := by
        rcases List.mem_cons.mp hz with h | h
        · exact absurd h.symm hd
        · exact h
      have hd0 : 0 ≤ d := hds d (by simp)
      exact ih (fun x hx => hds x (by simp [hx])) hz'
        (minStep m1 d) (minStep m2 d) (minStep_nonneg h1 hd0) (minStep_nonneg h2 hd0)

theorem minFoldAux_pos (ds : List Int) (hds : ∀ d ∈ ds, 0 < d) (m : Int)
    (hm : 0 < m) : minFoldAux m ds = listMin0 (m :: ds) := by
  induction ds generalizing m with
  | nil => simp [minFoldAux, listMin0]
  | cons e rest ih =>
    simp only [minFoldAux, List.foldl_cons] at ih ⊢
    have he : 0 < e := hds e (by simp)
    have hstep : minStep m e = min m e := by
      unfold minStep
      rcases le_or_lt m e with h | h
      · rw [min_eq_left h]; split <;> omega
      · rw [min_eq_right (le_of_lt h)]; split <;> omega
    rw [hstep, ih (fun x hx => hds x (by simp [hx])) _ (by omega)]
    cases rest with
    | nil => simp [listMin0]
    | cons f fs => simp [listMin0, min_assoc]

theorem minFoldAux_zero_start (ds : List Int) (hds : ∀ d ∈ ds, 0 < d) :
    minFoldAux 0 ds = listMin0 ds := by
  cases ds with
  | nil => simp [minFoldAux, listMin0]
  | cons d rest =>
    simp only [minFoldAux, List.foldl_cons]
    have : minStep 0 d = d := by unfold minStep; simp
    rw [this]
    exact minFoldAux_pos rest (fun x hx => hds x (by simp [hx])) d (hds d (by simp))

theorem minFoldAux_char (ds : List Int) (hds : ∀ d ∈ ds, 0 ≤ d) :
    minFoldAux 0 ds = listMin0 (suffixAfterZero ds) := by
  induction ds with
  | nil => simp [minFoldAux, listMin0, suffixAfterZero]
  | cons d rest ih =>
    have hd0 : 0 ≤ d := hds d (by simp)
    have hrest : ∀ x ∈ rest, 0 ≤ x := fun x hx => hds x (by simp [hx])
    simp only [minFoldAux, List.foldl_cons]
    have hstep : minStep 0 d = d := by unfold minStep; simp
    rw [hstep]
    by_cases hz : (0 : Int) ∈ rest
    · rw [show suffixAfterZero (d :: rest) = suffixAfterZero rest from by
        simp [suffixAfterZero, hz]]
      rw [← ih hrest]
      exact minFoldAux_zero_mem rest hrest hz d 0 hd0 le_rfl
    · have hpos : ∀ x ∈ rest, 0 < x := by
        intro x hx
        rcases lt_or_eq_of_le (hrest x hx) with h | h
        · exact h
        · exact absurd h.symm (by rintro rfl; exact hz hx)
      by_cases hd : d = 0
      · subst hd
        rw [show suffixAfterZero ((0 : Int) :: rest) = rest from by
          simp [suffixAfterZero, hz]]
        exact minFoldAux_zero_start rest hpos
      · rw [show suffixAfterZero (d :: rest) = d :: rest from by
          simp [suffixAfterZero, hz, hd]]
        exact minFoldAux_pos rest hpos d (by omega)

/-- C9 counterexample: recording a 0 ms request then a 5 ms request leaves
`min_time_ms = 5` although the minimum recorded duration is 0; and after a
single 0 ms record, `min_time_ms` is 0 even though a request was recorded. -/
theorem min_time_zero_duration_cex :
    (applyRecords statsInit [(0, 200), (5, 200)]).minTimeMs = 5 ∧
    (applyRecords statsInit [(0, 200), (5, 200)]).requestCount = 2 ∧
    (applyRecords statsInit [(0, 200)]).minTimeMs = 0 ∧
    (applyRecords statsInit [(0, 200)]).requestCount = 1 := by
  decide

/-- C9 amended: for nonnegative durations, `min_time_ms` equals the minimum
of the durations recorded strictly after the most recent 0 ms record (the
whole sequence when no 0 ms duration occurs, and 0 — the initial value —
when that suffix is empty). -/
theorem min_time_characterization (recs : List (Int × Int))
    (h : ∀ r ∈ recs, 0 ≤ r.1) :
    (applyRecords statsInit recs).minTimeMs =
      listMin0 (suffixAfterZero (recs.map Prod.fst)) := by
  rw [minTimeMs_fold]
  exact minFoldAux_char _ (by
    intro d hd
    obtain ⟨r, hr, hrd⟩ := List.mem_map.mp hd
    exact hrd ▸ h r hr)

/-- Witness for C9's amended theorem at the concrete record sequence
`[(0 ms, 200), (5 ms, 200)]`. -/
theorem min_time_characterization_witness :
    ((0 : Int) ≤ 0 ∧ (0 : Int) ≤ 5) ∧
    (applyRecords statsInit [(0, 200), (5, 200)]).minTimeMs =
      listMin0 (suffixAfterZero ([((0 : Int), (200 : Int)), (5, 200)].map Prod.fst)) :=
  ⟨by decide, min_time_characterization [(0, 200), (5, 200)] (by decide)⟩


/-! ## C1: conditional_error pattern -/

theorem runConditional_eq_map (cfg : EndpointConfig) (M : Nat) : ∀ c,
    runConditional cfg c M =
      (List.range M).map (fun k => condResponse cfg (c + k + 1)) := by
  induction M with
  | zero => intro c; simp [runConditional]
  | succ m ih =>
    intro c
    rw [runConditional, ih (c + 1), List.range_succ_eq_map]
    simp only [List.map_cons, List.map_map, Function.comp_def]
    have h2 : (fun k => condResponse cfg (c + 1 + k + 1)) =
        (fun k : Nat => condResponse cfg (c + (k + 1) + 1)) := by
      funext k
      have h3 : c + 1 + k + 1 = c + (k + 1) + 1 := by omega
      rw [h3]
    rw [h2]

theorem emod_eq_zero_iff_toNat (cfg : Int) (h : 1 ≤ cfg) (n : Nat) :
    ((n : Int) % cfg = 0) ↔ (n % cfg.toNat = 0) := by
  have hc : (cfg.toNat : Int) = cfg := Int.toNat_of_nonneg (by omega)
  rw [← hc]
  norm_cast

theorem condResponse_char (cfg : EndpointConfig) (h : 1 ≤ cfg.errorEveryN)
    (n : Nat) :
    condResponse cfg n =
      if n % cfg.errorEveryN.toNat = 0 then
        (cfg.statusCode, RespBody.errObj "Conditional error triggered")
      else (200, RespBody.jsonRef cfg.successResponse) := by
  by_cases hm : n % cfg.errorEveryN.toNat = 0
  · have hz : (n : Int) % cfg.errorEveryN = 0 :=
      (emod_eq_zero_iff_toNat _ h n).mpr hm
    simp [condResponse, hz, hm]
  · have hz : ¬ (n : Int) % cfg.errorEveryN = 0 :=
      fun hx => hm ((emod_eq_zero_iff_toNat _ h n).mp hx)
    simp [condResponse, hz, hm]

theorem countP_range_mult (N : Nat) (M : Nat) :
    (List.range M).countP (fun k => decide ((k + 1) % N = 0)) = M / N := by
  induction M with
  | zero => simp
  | succ m ih =>
    rw [List.range_succ, List.countP_append, ih, Nat.succ_div]
    simp only [List.countP_cons, List.countP_nil]
    have : (N ∣ m + 1) ↔ ((m + 1) % N = 0) := Nat.dvd_iff_mod_eq_zero
    by_cases hd : N ∣ m + 1
    · simp [hd, this.mp hd]
    · have h2 : ¬ (m + 1) % N = 0 := fun hx => hd (this.mpr hx)
      simp [hd, h2]


/-- C1: for a `conditional_error` endpoint with `error_every_n = N ≥ 1`
and a fresh conditional counter, the `M` successive responses are exactly:
the error response (the endpoint's status code with body
`{"error": "Conditional error triggered"}`) at the 1-indexed positions
divisible by `N`, and status 200 with the `success_response` body at every
other position; the number of error responses is `⌊M/N⌋`, and `N = 1`
makes every response the error response. -/
theorem conditional_error_pattern (cfg : EndpointConfig)
    (h : 1 ≤ cfg.errorEveryN) (M : Nat) :
    runConditional cfg 0 M = (List.range M).map (fun k =>
      if (k + 1) % cfg.errorEveryN.toNat = 0 then
        (cfg.statusCode, RespBody.errObj "Conditional error triggered")
      else (200, RespBody.jsonRef cfg.successResponse)) ∧
    (runConditional cfg 0 M).countP
      (fun r => decide (r.2 = RespBody.errObj "Conditional error triggered")) =
      M / cfg.errorEveryN.toNat ∧
    (cfg.errorEveryN = 1 → ∀ r ∈ runConditional cfg 0 M,
      r = (cfg.statusCode, RespBody.errObj "Conditional error triggered")) := by
  have hmap : runConditional cfg 0 M = (List.range M).map (fun k =>
      if (k + 1) % cfg.errorEveryN.toNat = 0 then
        (cfg.statusCode, RespBody.errObj "Conditional error triggered")
      else (200, RespBody.jsonRef cfg.successResponse)) := by
    rw [runConditional_eq_map cfg M 0]
    apply List.map_congr_left
    intro k _
    rw [condResponse_char cfg h (0 + k + 1)]
    have hz : 0 + k + 1 = k + 1 := by omega
    rw [hz]
  refine ⟨hmap, ?_, ?_⟩
  · rw [hmap, List.countP_map]
    have hp : ((fun r : Int × RespBody =>
          decide (r.2 = RespBody.errObj "Conditional error triggered")) ∘
        (fun k => if (k + 1) % cfg.errorEveryN.toNat = 0 then
          (cfg.statusCode, RespBody.errObj "Conditional error triggered")
        else (200, RespBody.jsonRef cfg.successResponse))) =
        fun k => decide ((k + 1) % cfg.errorEveryN.toNat = 0) := by
      funext k
      by_cases hk : (k + 1) % cfg.errorEveryN.toNat = 0 <;> simp [hk]
    rw [hp, countP_range_mult]
  · intro h1 r hr
    rw [hmap] at hr
    obtain ⟨k, _, rfl⟩ := List.mem_map.mp hr
    simp [h1]
    omega

/-- The `/api/flaky` seed endpoint from `createDefaultConfig`. -/
def flakyCfg : EndpointConfig :=
  { type := "conditional_error", statusCode := 503, message := "",
    delayMs := 0, response := none, errorEveryN := 3, successResponse := some 0 }

/-- Witness for C1 at the `/api/flaky` seed endpoint (`N = 3`) over 6
requests: errors at positions 3 and 6, so 2 = ⌊6/3⌋ errors. -/
theorem conditional_error_pattern_witness :
    1 ≤ flakyCfg.errorEveryN ∧
    (runConditional flakyCfg 0 6).countP
      (fun r => decide (r.2 = RespBody.errObj "Conditional error triggered")) =
      6 / flakyCfg.errorEveryN.toNat :=
  ⟨by decide, (conditional_error_pattern flakyCfg (by decide) 6).2.1⟩


/-! ## C6: endpoint validation -/

/-- An endpoint whose type tag is `"static"`. -/
def staticCfg : EndpointConfig :=
  { type := "static", statusCode := 0, message := "", delayMs := 0,
    response := none, errorEveryN := 0, successResponse := none }

/-- C6 counterexample: `validateEndpointConfig` accepts the type tag
`"static"` (with no field constraints at all), although it is none of
`error`, `delay`, `conditional_error`. -/
theorem validate_accepts_static_type :
    validateEndpointConfig staticCfg = none ∧
    staticCfg.type ≠ "error" ∧ staticCfg.type ≠ "delay" ∧
    staticCfg.type ≠ "conditional_error" := by
  decide

/-- C6 amended: validation accepts exactly the three behavior kinds under
their field constraints (status in [400,599] for `error` and
`conditional_error`, `delay_ms ≥ 0` for `delay`, `error_every_n ≥ 1` for
`conditional_error`) plus the tag `"static"`, which is accepted
unconditionally; every other type tag is a validation error. -/
theorem validate_endpoint_config_characterization (c : EndpointConfig) :
    validateEndpointConfig c = none ↔
      ((c.type = "error" ∧ 400 ≤ c.statusCode ∧ c.statusCode ≤ 599) ∨
       (c.type = "delay" ∧ 0 ≤ c.delayMs) ∨
       (c.type = "conditional_error" ∧ 1 ≤ c.errorEveryN ∧
         400 ≤ c.statusCode ∧ c.statusCode ≤ 599) ∨
       c.type = "static") := by
  unfold validateEndpointConfig
  by_cases h1 : c.type = "error"
  · simp only [h1, if_pos rfl]
    have d1 : ("error" : String) ≠ "delay" := by decide
    have d2 : ("error" : String) ≠ "conditional_error" := by decide
    have d3 : ("error" : String) ≠ "static" := by decide
    by_cases hb : c.statusCode < 400 ∨ 599 < c.statusCode
    · simp [hb, d1, d2, d3]
      omega
    · simp [hb, d1, d2, d3]
      omega
  · simp only [h1, if_neg h1]
    by_cases h2 : c.type = "delay"
    · have d2 : ("delay" : String) ≠ "conditional_error" := by decide
      have d3 : ("delay" : String) ≠ "static" := by decide
      simp only [h2, if_pos rfl]
      by_cases hb : c.delayMs < 0
      · simp [hb, h1, h2, d2, d3]
        try omega
      · simp [hb, h1, h2, d2, d3]
        try omega
    · simp only [if_neg h2]
      by_cases h3 : c.type = "conditional_error"
      · have d3 : ("conditional_error" : String) ≠ "static" := by decide
        simp only [h3, if_pos rfl]
        by_cases hn : c.errorEveryN < 1
        · simp [hn, h1, h2, h3, d3]
          try omega
        · by_cases hb : c.statusCode < 400 ∨ 599 < c.statusCode
          · simp [hn, hb, h1, h2, h3, d3]
            try omega
          · simp [hn, hb, h1, h2, h3, d3]
            try omega
      · simp only [if_neg h3]
        by_cases h4 : c.type = "static"
        · simp [h4, h1, h2, h3]
        · simp [h4, h1, h2, h3]

/-! ## Association-list lemmas for the heap and tables -/

theorem lookupAssoc_updateAssoc_self {α β : Type} [DecidableEq α]
    (l : List (α × β)) (a : α) (b : β) :
    lookupAssoc (updateAssoc l a b) a = some b := by
  induction l with
  | nil => simp [updateAssoc, lookupAssoc]
  | cons p r ih =>
    obtain ⟨x, y⟩ := p
    by_cases h : x = a
    · simp [updateAssoc, lookupAssoc, h]
    · simp [updateAssoc, lookupAssoc, h, ih]

theorem updateAssoc_self_of_lookup {α β : Type} [DecidableEq α]
    (l : List (α × β)) (a : α) (b : β) (h : lookupAssoc l a = some b) :
    updateAssoc l a b = l := by
  induction l with
  | nil => simp [lookupAssoc] at h
  | cons p r ih =>
    obtain ⟨x, y⟩ := p
    by_cases hx : x = a
    · subst hx
      simp [lookupAssoc] at h
      simp [updateAssoc, h]
    · simp [lookupAssoc, hx] at h
      simp [updateAssoc, hx, ih h]

theorem removeAssoc_of_lookup_none {α β : Type} [DecidableEq α]
    (l : List (α × β)) (a : α) (h : lookupAssoc l a = none) :
    removeAssoc l a = l := by
  induction l with
  | nil => simp [removeAssoc]
  | cons p r ih =>
    obtain ⟨x, y⟩ := p
    by_cases hx : x = a
    · simp [lookupAssoc, hx] at h
    · simp [lookupAssoc, hx] at h
      simp [removeAssoc, hx, ih h]

/-! ## Demo fixtures (the seed configuration of `createDefaultConfig`,
laid out on the heap) -/

def demoServer : ServerConfig :=
  { port := 8080, host := "0.0.0.0", staticDir := "./static" }

def errCfg : EndpointConfig :=
  { type := "error", statusCode := 500, message := "Internal Server Error",
    delayMs := 0, response := none, errorEveryN := 0, successResponse := none }

def delayCfg : EndpointConfig :=
  { type := "delay", statusCode := 0, message := "", delayMs := 2000,
    response := some 1, errorEveryN := 0, successResponse := none }

def demoHeap : Heap :=
  { tables := [(0, [("/api/error", errCfg), ("/api/delay", delayCfg)])],
    jsons := [(1, [("message", "Delayed response")])], next := 2 }

/-- A loaded manager whose live endpoint table sits at address 0. -/
def demoState : MState :=
  { config := some { server := demoServer, endpoints := some 0 }, heap := demoHeap }

def demoConfig : Config := { server := demoServer, endpoints := some 0 }

def newDelayCfg : EndpointConfig :=
  { type := "delay", statusCode := 0, message := "", delayMs := 500,
    response := none, errorEveryN := 0, successResponse := none }

/-! ## C10: RemoveEndpoint error behaviour -/

/-- C10 counterexample: on a loaded configuration with a non-nil endpoint
table and an absent path, `RemoveEndpoint` still returns an error when
persisting to disk fails, so "no error whenever loaded and non-nil" and
the stated biconditional are both false. -/
theorem remove_endpoint_persist_failure_errors :
    demoState.config.isSome ∧
    (demoState.config.bind fun c => c.endpoints).isSome ∧
    lookupAssoc (lookupTable demoState.heap 0) "/absent" = none ∧
    (removeEndpoint demoState "/absent" false).1 = some "failed to save config" := by
  decide

/-- C10 amended: `RemoveEndpoint` returns an error exactly when the
configuration is not loaded, the endpoint table is nil, or persisting to
disk fails; when the configuration is loaded with a (well-formed) non-nil
table and the path is absent, the whole manager state is left unchanged
(regardless of the persistence outcome). -/
theorem remove_endpoint_error_characterization (st : MState) (p : String)
    (saveOk : Bool) :
    ((removeEndpoint st p saveOk).1 = none ↔
      (st.config.bind fun c => c.endpoints).isSome ∧ saveOk = true) ∧
    (∀ c a t, st.config = some c → c.endpoints = some a →
      lookupAssoc st.heap.tables a = some t → lookupAssoc t p = none →
      (removeEndpoint st p saveOk).2 = st) := by
  constructor
  · match hc : st.config with
    | none => simp [removeEndpoint, hc]
    | some c =>
      match he : c.endpoints with
      | none => simp [removeEndpoint, hc, he]
      | some a =>
        cases saveOk <;> simp [removeEndpoint, hc, he]
  · intro c a t hc he ht hp
    have htab : lookupTable st.heap a = t := by simp [lookupTable, ht]
    have hrm : removeAssoc (lookupTable st.heap a) p = t := by
      rw [htab]
      exact removeAssoc_of_lookup_none t p hp
    have hheap : writeTable st.heap a (removeAssoc (lookupTable st.heap a) p) = st.heap := by
      rw [hrm]
      simp only [writeTable]
      have := updateAssoc_self_of_lookup st.heap.tables a t ht
      rw [this]
    have hst : ({ config := some c, heap := st.heap } : MState) = st := by
      cases st with
      | mk cfg hp2 => simp at hc; simp [hc]
    cases saveOk <;> simp [removeEndpoint, hc, he, hheap, hst]

/-- Witness for C10's amended theorem: removing the absent path
`"/absent"` from the loaded demo state with persistence succeeding. -/
theorem remove_endpoint_error_characterization_witness :
    (demoState.config = some demoConfig ∧ demoConfig.endpoints = some 0 ∧
      lookupAssoc demoState.heap.tables 0 =
        some [("/api/error", errCfg), ("/api/delay", delayCfg)] ∧
      lookupAssoc [("/api/error", errCfg), ("/api/delay", delayCfg)] "/absent" = none) ∧
    (removeEndpoint demoState "/absent" true).2 = demoState :=
  ⟨⟨by decide, by decide, by decide, by decide⟩,
    (remove_endpoint_error_characterization demoState "/absent" true).2
      demoConfig 0 [("/api/error", errCfg), ("/api/delay", delayCfg)]
      (by decide) (by decide) (by decide) (by decide)⟩

/-! ## C2: mutator atomicity -/

/-- C2 counterexample: `UpdateEndpoint` applies the in-memory mutation
before persisting, so when the save to disk fails the error is returned
but the live configuration has structurally changed. -/
theorem upsert_persist_failure_mutates :
    (updateEndpoint demoState "/api/new" newDelayCfg false).1 =
      some "failed to save config" ∧
    renderMState (updateEndpoint demoState "/api/new" newDelayCfg false).2 ≠
      renderMState demoState := by
  decide

/-- C2 amended: `UpdateConfig` (replace) is all-or-nothing — a validation
or persistence failure returns the error and leaves the state unchanged.
`UpdateEndpoint` validates before any state change and returns the
validation error with the state unchanged, and `RemoveEndpoint` performs
no validation; but both apply the in-memory table mutation before
persisting, so a persistence failure returns the error while the mutation
remains in the live configuration. -/
theorem mutator_atomicity (st : MState) (nc : Config) (p : String)
    (ec : EndpointConfig) (saveOk : Bool) :
    (∀ e, validateConfig st.heap nc = some e →
      updateConfig st nc saveOk = (some e, st)) ∧
    ((updateConfig st nc false).2 = st) ∧
    (∀ e c, st.config = some c → validateEndpointConfig ec = some e →
      updateEndpoint st p ec saveOk = (some e, st)) ∧
    (∀ c a, st.config = some c → c.endpoints = some a →
      validateEndpointConfig ec = none →
      (updateEndpoint st p ec false).1 = some "failed to save config" ∧
      endpointsOf (updateEndpoint st p ec false).2 =
        some (updateAssoc (lookupTable st.heap a) p ec)) ∧
    (∀ c a, st.config = some c → c.endpoints = some a →
      (removeEndpoint st p false).1 = some "failed to save config" ∧
      endpointsOf (removeEndpoint st p false).2 =
        some (removeAssoc (lookupTable st.heap a) p)) := by
  refine ⟨?_, ?_, ?_, ?_, ?_⟩
  · intro e he
    simp [updateConfig, he]
  · unfold updateConfig
    match hv : validateConfig st.heap nc with
    | some e => simp
    | none => simp
  · intro e c hc he
    simp [updateEndpoint, hc, he]
  · intro c a hc he hv
    constructor
    · simp [updateEndpoint, hc, hv, he]
    · simp only [updateEndpoint, hc, hv, he]
      simp only [endpointsOf, Option.bind, Option.map]
      simp [he, lookupTable, writeTable, lookupAssoc_updateAssoc_self]
  · intro c a hc he
    constructor
    · simp [removeEndpoint, hc, he]
    · simp only [removeEndpoint, hc, he]
      simp only [endpointsOf, Option.bind, Option.map]
      simp [he, lookupTable, writeTable, lookupAssoc_updateAssoc_self]

/-- Witness for C2's amended theorem: upserting a valid `/api/new` delay
endpoint into the loaded demo state with a failing save keeps the insert
in memory. -/
theorem mutator_atomicity_witness :
    (demoState.config = some demoConfig ∧ demoConfig.endpoints = some 0 ∧
      validateEndpointConfig newDelayCfg = none) ∧
    ((updateEndpoint demoState "/api/new" newDelayCfg false).1 =
        some "failed to save config" ∧
      endpointsOf (updateEndpoint demoState "/api/new" newDelayCfg false).2 =
        some (updateAssoc (lookupTable demoState.heap 0) "/api/new" newDelayCfg)) :=
  ⟨⟨by decide, by decide, by decide⟩,
    (mutator_atomicity demoState demoConfig "/api/new" newDelayCfg false).2.2.2.1
      demoConfig 0 (by decide) (by decide) (by decide)⟩

/-! ## C7: GetConfig deep-copy claim -/

/-- C7: `GetConfig` copies the Config struct and the endpoints table, but
the copied `EndpointConfig` values still reference the same nested JSON
objects. At the demo state, the snapshot's table lands at the fresh
address 2 with the same entries, whose `/api/delay` entry points at JSON
address 1 — the very object referenced by the live configuration — so
writing through the snapshot's nested `response` reference changes the
manager's live configuration, while the live table pointer itself is
untouched. -/
theorem getConfig_shared_nested_response :
    (getConfig demoState).1 = some { server := demoServer, endpoints := some 2 } ∧
    lookupTable (getConfig demoState).2.heap 2 =
      [("/api/error", errCfg), ("/api/delay", delayCfg)] ∧
    delayCfg.response = some 1 ∧
    (getConfig demoState).2.config = demoState.config ∧
    renderMState (getConfig demoState).2 = renderMState demoState ∧
    renderMState { (getConfig demoState).2 with
        heap := writeJson (getConfig demoState).2.heap 1 [("message", "mutated")] } ≠
      renderMState (getConfig demoState).2 := by
  decide

/-! ## C8: control-plane statistics -/

def demoSrvState : SrvState :=
  { mgr := demoState,
    stats := { requestCount := 0, errorCount := 0, endpoints := [] } }

/-- A full-config PUT body with an invalid port. -/
def badConfig : Config :=
  { server := { port := 0, host := "0.0.0.0", staticDir := "./static" },
    endpoints := none }

def putBadReq : ConfigRequest :=
  { method := "PUT", putBody := some badConfig, postBody := none, queryPath := "" }

/-- C8 counterexample: a `PUT /config` that fails validation writes status
400 to the client, yet the statistics recorded under `"/config"` count the
request as a 200: the error count stays 0 and the histogram has no 400
bucket. -/
theorem config_put_validation_failure_recorded_ok :
    (handleConfig demoSrvState putBadReq true 1).2 = 400 ∧
    (getEndpointStats (handleConfig demoSrvState putBadReq true 1).1.stats
      "/config").errorCount = 0 ∧
    lookupAssoc (getEndpointStats (handleConfig demoSrvState putBadReq true 1).1.stats
      "/config").statusCodes 400 = none ∧
    lookupAssoc (getEndpointStats (handleConfig demoSrvState putBadReq true 1).1.stats
      "/config").statusCodes 200 = some 1 ∧
    (handleConfig demoSrvState putBadReq true 1).1.stats.errorCount = 0 := by
  decide

/-- C8 amended: `/config` and `/stats` record exactly one statistics
sample per request under their literal paths, but always with status 200
(`http.StatusOK`), regardless of the status actually written to the
client; `/requestlog` records no statistics at all. The written status is
captured only by the logging middleware, not by the statistics. -/
theorem control_plane_stats_recording (st : SrvState) (req : ConfigRequest)
    (saveOk : Bool) (durationMs : Int) (method : String) :
    (handleConfig st req saveOk durationMs).1.stats =
      recordServerRequest st.stats "/config" durationMs 200 ∧
    (handleStats st durationMs).1.stats =
      recordServerRequest st.stats "/stats" durationMs 200 ∧
    (handleRequestLog st method).1 = st :=
  ⟨rfl, rfl, rfl⟩

/-! ## C5: path traversal. Lemmas about the lexical path algebra. -/

theorem splitSlash_ne_nil (cs : List Char) : splitSlash cs ≠ [] := by
  cases cs with
  | nil => simp [splitSlash]
  | cons c cs =>
    simp only [splitSlash]
    by_cases h : c = '/'
    · simp [h]
    · simp only [if_neg h]
      match hr : splitSlash cs with
      | [] => simp
      | e :: rest => simp

theorem splitSlash_append (xs ys : List Char) :
    splitSlash (xs ++ '/' :: ys) = splitSlash xs ++ splitSlash ys := by
  induction xs with
  | nil => simp [splitSlash]
  | cons c cs ih =>
    simp only [List.cons_append, splitSlash]
    by_cases h : c = '/'
    · simp [h, ih]
    · simp only [if_neg h]
      have ih2 : splitSlash (cs.append ('/' :: ys)) = splitSlash cs ++ splitSlash ys := ih
      rw [ih2]
      rcases hr : splitSlash cs with _ | ⟨e, rest⟩
      · exact absurd hr (splitSlash_ne_nil cs)
      · simp [List.cons_append]

theorem splitSlash_of_noSlash (l : List Char) (h : '/' ∉ l) :
    splitSlash l = [l] := by
  induction l with
  | nil => simp [splitSlash]
  | cons c cs ih =>
    have hc : ¬ c = '/' := fun hx => h (by simp [hx])
    have hcs : '/' ∉ cs := fun hx => h (by simp [hx])
    simp only [splitSlash, if_neg hc, ih hcs]

theorem splitSlash_elem_noSlash (cs : List Char) :
    ∀ e ∈ splitSlash cs, '/' ∉ e := by
  induction cs with
  | nil =>
    intro e he
    simp [splitSlash] at he
    simp [he]
  | cons c cs ih =>
    intro e he
    simp only [splitSlash] at he
    by_cases h : c = '/'
    · simp [h] at he
      rcases he with he | he
      · simp [he]
      · exact ih e he
    · simp only [if_neg h] at he
      match hr : splitSlash cs with
      | [] => exact absurd hr (splitSlash_ne_nil cs)
      | f :: rest =>
        rw [hr] at he
        simp at he
        rcases he with he | he
        · subst he
          intro hx
          rcases List.mem_cons.mp hx with hx | hx
          · exact h hx.symm
          · exact ih f (by rw [hr]; simp) hx
        · exact ih e (by rw [hr]; simp [he])

theorem cleanFold_append (r : Bool) (l1 l2 : List (List Char)) : ∀ acc,
    cleanFold r acc (l1 ++ l2) = cleanFold r (cleanFold r acc l1) l2 := by
  induction l1 with
  | nil => intro acc; rfl
  | cons e es ih =>
    intro acc
    simp only [List.cons_append, cleanFold]
    by_cases h1 : e = [] ∨ e = ['.']
    · simp only [if_pos h1]
      exact ih acc
    · simp only [if_neg h1]
      by_cases h2 : e = ['.', '.']
      · simp only [if_pos h2]
        match acc with
        | [] =>
          cases r
          · rw [if_neg (by simp)]
            exact ih _
          · rw [if_pos rfl]
            exact ih _
        | top :: rest =>
          by_cases h3 : top = ['.', '.']
          · simp only [if_pos h3]
            exact ih _
          · simp only [if_neg h3]
            exact ih _
      · simp only [if_neg h2]
        exact ih _

/-- A cleaned path segment: nonempty, not `.`, not `..`, slash-free. -/
def goodSeg (e : List Char) : Prop :=
  e ≠ [] ∧ e ≠ ['.'] ∧ e ≠ ['.', '.'] ∧ '/' ∉ e

instance (e : List Char) : Decidable (goodSeg e) := by
  unfold goodSeg
  infer_instance

theorem cleanFold_skip (r : Bool) (acc : List (List Char)) (e : List Char)
    (es : List (List Char)) (h : e = [] ∨ e = ['.']) :
    cleanFold r acc (e :: es) = cleanFold r acc es := by
  simp only [cleanFold]
  rw [if_pos h]

theorem cleanFold_seg (r : Bool) (acc : List (List Char)) (e : List Char)
    (es : List (List Char)) (h1 : ¬(e = [] ∨ e = ['.'])) (h2 : e ≠ ['.', '.']) :
    cleanFold r acc (e :: es) = cleanFold r (e :: acc) es := by
  simp only [cleanFold]
  rw [if_neg h1, if_neg h2]

theorem cleanFold_dd_pop (r : Bool) (top : List Char) (rest es : List (List Char))
    (h : top ≠ ['.', '.']) :
    cleanFold r (top :: rest) (['.', '.'] :: es) = cleanFold r rest es := by
  simp only [cleanFold]
  simp [h]

theorem cleanFold_dd_nil_rooted (es : List (List Char)) :
    cleanFold true [] (['.', '.'] :: es) = cleanFold true [] es := by
  simp only [cleanFold]
  simp

theorem cleanFold_push (r : Bool) (segs : List (List Char))
    (h : ∀ e ∈ segs, e ≠ [] ∧ e ≠ ['.'] ∧ e ≠ ['.', '.']) : ∀ acc,
    cleanFold r acc segs = segs.reverse ++ acc := by
  induction segs with
  | nil => intro acc; simp [cleanFold]
  | cons e es ih =>
    intro acc
    obtain ⟨h1, h2, h3⟩ := h e (by simp)
    have hcond : ¬ (e = [] ∨ e = ['.']) := by
      rintro (hx | hx)
      exacts [h1 hx, h2 hx]
    rw [cleanFold_seg r acc e es hcond h3, ih (fun x hx => h x (by simp [hx]))]
    simp

theorem cleanFold_rooted_good (es : List (List Char)) :
    ∀ acc, (∀ x ∈ acc, goodSeg x) → (∀ e ∈ es, '/' ∉ e) →
    ∀ x ∈ cleanFold true acc es, goodSeg x := by
  induction es with
  | nil =>
    intro acc hacc _ x hx
    exact hacc x hx
  | cons e es ih =>
    intro acc hacc hes x hx
    by_cases h1 : e = [] ∨ e = ['.']
    · rw [cleanFold_skip true acc e es h1] at hx
      exact ih acc hacc (fun f hf => hes f (by simp [hf])) x hx
    · by_cases h2 : e = ['.', '.']
      · subst h2
        match hacc2 : acc with
        | [] =>
          rw [cleanFold_dd_nil_rooted es] at hx
          exact ih [] (by simp) (fun f hf => hes f (by simp [hf])) x hx
        | top :: rest =>
          have htop : goodSeg top := hacc top (by simp)
          rw [cleanFold_dd_pop true top rest es htop.2.2.1] at hx
          exact ih rest (fun f hf => hacc f (by simp [hf]))
            (fun f hf => hes f (by simp [hf])) x hx
      · rw [cleanFold_seg true acc e es h1 h2] at hx
        have he : goodSeg e := by
          refine ⟨?_, ?_, h2, hes e (by simp)⟩
          · intro hx2; exact h1 (Or.inl hx2)
          · intro hx2; exact h1 (Or.inr hx2)
        refine ih (e :: acc) ?_ (fun f hf => hes f (by simp [hf])) x hx
        intro f hf
        rcases List.mem_cons.mp hf with hf | hf
        · exact hf ▸ he
        · exact hacc f hf

theorem joinSegs_append (l1 l2 : List (List Char)) (h1 : l1 ≠ []) (h2 : l2 ≠ []) :
    joinSegs (l1 ++ l2) = joinSegs l1 ++ '/' :: joinSegs l2 := by
  induction l1 with
  | nil => exact absurd rfl h1
  | cons e es ih =>
    cases es with
    | nil =>
      cases l2 with
      | nil => exact absurd rfl h2
      | cons f fs => simp [joinSegs]
    | cons g gs =>
      have hrec : joinSegs (e :: g :: (gs ++ l2)) =
          e ++ '/' :: joinSegs (g :: (gs ++ l2)) := rfl
      have hih := ih (by simp)
      simp only [List.cons_append] at hih ⊢
      rw [hrec, hih]
      have hrec2 : joinSegs (e :: g :: gs) = e ++ '/' :: joinSegs (g :: gs) := rfl
      rw [hrec2]
      simp

theorem splitSlash_joinSegs (segs : List (List Char))
    (h : ∀ e ∈ segs, '/' ∉ e) (hne : segs ≠ []) :
    splitSlash (joinSegs segs) = segs := by
  induction segs with
  | nil => exact absurd rfl hne
  | cons e es ih =>
    cases es with
    | nil =>
      rw [show joinSegs [e] = e from rfl]
      exact splitSlash_of_noSlash e (h e (by simp))
    | cons f fs =>
      rw [show joinSegs (e :: f :: fs) = e ++ '/' :: joinSegs (f :: fs) from rfl]
      rw [splitSlash_append, splitSlash_of_noSlash e (h e (by simp))]
      rw [ih (fun x hx => h x (by simp [hx])) (by simp)]
      simp

theorem splitSlash_cons_slash (js : List Char) :
    splitSlash ('/' :: js) = [] :: splitSlash js := by
  simp [splitSlash]

theorem goClean_rooted (p : String) (cs : List Char) (hp : p.data = '/' :: cs) :
    goClean p =
      ⟨'/' :: joinSegs ((cleanFold true [] (splitSlash ('/' :: cs))).reverse)⟩ := by
  unfold goClean
  rw [hp]
  simp

theorem goClean_segs_good (cs : List Char) :
    ∀ x ∈ (cleanFold true [] (splitSlash ('/' :: cs))).reverse, goodSeg x := by
  intro x hx
  exact cleanFold_rooted_good (splitSlash ('/' :: cs)) [] (by simp)
    (splitSlash_elem_noSlash _) x (List.mem_reverse.mp hx)

theorem goClean_rootedForm (P : List (List Char)) (hP : ∀ x ∈ P, goodSeg x) :
    goClean ⟨'/' :: joinSegs P⟩ = ⟨'/' :: joinSegs P⟩ := by
  rw [goClean_rooted ⟨'/' :: joinSegs P⟩ (joinSegs P) rfl]
  cases P with
  | nil =>
    rw [show joinSegs ([] : List (List Char)) = [] from rfl]
    rw [show splitSlash ('/' :: []) = [[], []] from rfl]
    rw [show cleanFold true [] [[], []] = [] from rfl]
    rfl
  | cons e es =>
    rw [splitSlash_cons_slash]
    rw [splitSlash_joinSegs (e :: es) (fun x hx => (hP x hx).2.2.2) (by simp)]
    rw [cleanFold_skip true [] [] (e :: es) (Or.inl rfl)]
    rw [cleanFold_push true (e :: es)
      (fun x hx => ⟨(hP x hx).1, (hP x hx).2.1, (hP x hx).2.2.1⟩) []]
    simp

theorem string_ne_empty_of_data (p : String) (c : Char) (cs : List Char)
    (hp : p.data = c :: cs) : p ≠ "" := by
  intro hx
  rw [hx] at hp
  simp at hp

theorem goJoin_rooted (sd : String) (cs : List Char) (hsd : sd.data = '/' :: cs)
    (P : List (List Char)) (hP : ∀ x ∈ P, goodSeg x) (hPne : P ≠ []) :
    goJoin sd ⟨'/' :: joinSegs P⟩ =
      ⟨'/' :: joinSegs
        ((cleanFold true [] (splitSlash ('/' :: cs))).reverse ++ P)⟩ := by
  have ha : sd ≠ "" := string_ne_empty_of_data sd '/' cs hsd
  have hb : (⟨'/' :: joinSegs P⟩ : String) ≠ "" :=
    string_ne_empty_of_data _ '/' (joinSegs P) rfl
  unfold goJoin
  rw [if_neg (by rintro ⟨hx, _⟩; exact ha hx), if_neg ha, if_neg hb]
  have hdata : sd.data ++ '/' :: (⟨'/' :: joinSegs P⟩ : String).data =
      '/' :: (cs ++ '/' :: '/' :: joinSegs P) := by
    rw [hsd]
    rfl
  rw [goClean_rooted _ (cs ++ '/' :: '/' :: joinSegs P) hdata]
  have hsplit : splitSlash ('/' :: (cs ++ '/' :: '/' :: joinSegs P)) =
      splitSlash ('/' :: cs) ++ [] :: splitSlash (joinSegs P) := by
    rw [show ('/' :: (cs ++ '/' :: '/' :: joinSegs P)) =
        ('/' :: cs) ++ '/' :: ('/' :: joinSegs P) from by simp]
    rw [splitSlash_append]
    simp [splitSlash_cons_slash]
  rw [hsplit]
  rw [splitSlash_joinSegs P (fun x hx => (hP x hx).2.2.2) hPne]
  rw [cleanFold_append true _ ([] :: P) []]
  rw [cleanFold_skip true _ [] P (Or.inl rfl)]
  rw [cleanFold_push true P
    (fun x hx => ⟨(hP x hx).1, (hP x hx).2.1, (hP x hx).2.2.1⟩)]
  simp

theorem isRooted_data (p : String) (h : isRooted p = true) :
    ∃ cs, p.data = '/' :: cs := by
  unfold isRooted at h
  match hp : p.data with
  | [] => rw [hp] at h; simp at h
  | c :: cs =>
    rw [hp] at h
    simp at h
    subst h
    exact ⟨cs, rfl⟩

/-- C5 counterexample: the traversal request path `/../etc/passwd` is not
rejected with 403. `filepath.Clean` strips the leading `..` from the
rooted path, so the request resolves to `static/etc/passwd`, inside the
static root, and is served (the file layer then decides the status). -/
theorem traversal_path_not_forbidden :
    handleStaticFile "/app" "./static" "/../etc/passwd" =
      StaticOutcome.serve "static/etc/passwd" ∧
    goClean "/../etc/passwd" = "/etc/passwd" := by
  decide

/-- C5 amended: the 403 branch rejects exactly the requests whose resolved
absolute path lacks the absolute static root as a prefix — but because the
URL path is lexically cleaned before being joined onto the root, a rooted
request path can never produce such an escape: for every rooted static
root and every rooted request path, `handleStaticFile` never returns 403.
Traversal sequences are neutralized by cleaning rather than rejected. -/
theorem static_rooted_paths_not_forbidden (cwd staticDir urlPath : String)
    (hsd : isRooted staticDir = true) (hurl : isRooted urlPath = true) :
    handleStaticFile cwd staticDir urlPath ≠ StaticOutcome.forbidden := by
  obtain ⟨csd, hsdd⟩ := isRooted_data staticDir hsd
  obtain ⟨cu, hud⟩ := isRooted_data urlPath hurl
  obtain ⟨Q, hQdef⟩ : ∃ Q,
      Q = (cleanFold true [] (splitSlash ('/' :: cu))).reverse := ⟨_, rfl⟩
  have hcleanUrl : goClean urlPath = ⟨'/' :: joinSegs Q⟩ := by
    rw [hQdef]
    exact goClean_rooted urlPath cu hud
  have hQgood : ∀ x ∈ Q, goodSeg x := by
    rw [hQdef]
    exact goClean_segs_good cu
  have hsubst : ∃ P, (∀ x ∈ P, goodSeg x) ∧ P ≠ [] ∧
      (if goClean urlPath = "/" then "/index.html" else goClean urlPath) =
        ⟨'/' :: joinSegs P⟩ := by
    by_cases hc : goClean urlPath = "/"
    · refine ⟨["index.html".data], ?_, by simp, ?_⟩
      · intro x hx
        simp at hx
        subst hx
        decide
      · rw [if_pos hc]
        decide
    · refine ⟨Q, hQgood, ?_, by rw [if_neg hc]; exact hcleanUrl⟩
      intro hQnil
      apply hc
      rw [hcleanUrl, hQnil]
      decide
  obtain ⟨P, hPgood, hPne, hcp⟩ := hsubst
  obtain ⟨A, hAdef⟩ : ∃ A,
      A = (cleanFold true [] (splitSlash ('/' :: csd))).reverse := ⟨_, rfl⟩
  have hAgood : ∀ x ∈ A, goodSeg x := by
    rw [hAdef]
    exact goClean_segs_good csd
  have hcleanSd : goClean staticDir = ⟨'/' :: joinSegs A⟩ := by
    rw [hAdef]
    exact goClean_rooted staticDir csd hsdd
  have hjoin : goJoin staticDir ⟨'/' :: joinSegs P⟩ = ⟨'/' :: joinSegs (A ++ P)⟩ := by
    rw [hAdef]
    exact goJoin_rooted staticDir csd hsdd P hPgood hPne
  have hAPgood : ∀ x ∈ A ++ P, goodSeg x := by
    intro x hx
    rcases List.mem_append.mp hx with h | h
    exacts [hAgood x h, hPgood x h]
  have hidem : goClean ⟨'/' :: joinSegs (A ++ P)⟩ = ⟨'/' :: joinSegs (A ++ P)⟩ :=
    goClean_rootedForm _ hAPgood
  have habsSd : goAbs cwd staticDir = ⟨'/' :: joinSegs A⟩ := by
    unfold goAbs
    rw [if_pos hsd, hcleanSd]
  have hrootedF : isRooted ⟨'/' :: joinSegs (A ++ P)⟩ = true := rfl
  have habsF : goAbs cwd ⟨'/' :: joinSegs (A ++ P)⟩ = ⟨'/' :: joinSegs (A ++ P)⟩ := by
    unfold goAbs
    rw [if_pos hrootedF, hidem]
  have hpre : strHasPre ⟨'/' :: joinSegs (A ++ P)⟩ ⟨'/' :: joinSegs A⟩ = true := by
    unfold strHasPre
    show (('/' :: joinSegs A).isPrefixOf ('/' :: joinSegs (A ++ P))) = true
    cases A with
    | nil =>
      rw [show joinSegs ([] : List (List Char)) = [] from rfl]
      simp [List.isPrefixOf]
    | cons a as =>
      rw [joinSegs_append (a :: as) P (by simp) hPne]
      rw [show ('/' :: (joinSegs (a :: as) ++ '/' :: joinSegs P)) =
          ('/' :: joinSegs (a :: as)) ++ ('/' :: joinSegs P) from by simp]
      rw [List.isPrefixOf_iff_prefix]
      exact List.prefix_append _ _
  unfold handleStaticFile
  simp only []
  rw [hcp, hjoin, habsF, habsSd, hpre]
  simp

/-- Witness for C5's amended theorem: the rooted static root `/srv/static`
and the traversal path `/../etc/passwd` are not rejected. -/
theorem static_rooted_paths_not_forbidden_witness :
    (isRooted "/srv/static" = true ∧ isRooted "/../etc/passwd" = true) ∧
    handleStaticFile "/app" "/srv/static" "/../etc/passwd" ≠
      StaticOutcome.forbidden :=
  ⟨⟨by decide, by decide⟩,
    static_rooted_paths_not_forbidden "/app" "/srv/static" "/../etc/passwd"
      (by decide) (by decide)⟩
